import Mathlib

/-!
Shallow embedding of the `nauta_migrations` migration runner
(`src/nauta_migrations/migrate.py` and the batch loop of
`src/nauta_migrations/cli.py`).

Modelling conventions:
* a directory is `Option (List DirEntry)`: `none` when the migrations
  directory does not exist, otherwise the entries in the (arbitrary)
  order the operating system enumerates them;
* the applied-migrations ledger (the Mongo collection `_migrations`) is a
  `List LedgerEntry` kept in insertion order; `find().sort("applied_at", 1)`
  is a stable sort by the `applied_at` field; `insert_one` appends with a
  fresh `_id`; `delete_one {_id: i}` removes the first entry with that id;
* the dynamic behaviour of a migration unit's source file is an environment
  `String → UnitBehavior` keyed by file name, recording whether the module
  spec resolves, whether executing the module raises, whether it defines a
  `Migration` class, and whether `upgrade` / `downgrade` raise;
* wall-clock timestamps are natural numbers threaded explicitly.
-/

namespace Nauta

/-! ### String helpers mirroring `pathlib.PurePath.suffix` / `.stem` and
`str.split("_", 1)` as used in `migrate.py`. -/

/-- Index of the last `'.'` in a character list (`str.rfind('.')`),
`none` when absent. -/
def lastDotIdx (l : List Char) : Option Nat :=
  match l.reverse.findIdx? (fun c => c == '.') with
  | none => none
  | some j => some (l.length - 1 - j)

/-- `pathlib` suffix of a file name: the part from the last dot, provided
that dot is neither the first nor the last character; otherwise empty. -/
def pathSuffix (s : String) : String :=
  match lastDotIdx s.data with
  | none => ""
  | some i =>
    if 0 < i ∧ i < s.data.length - 1 then String.mk (s.data.drop i) else ""

/-- `pathlib` stem of a file name: the name with its suffix removed. -/
def pathStem (s : String) : String :=
  match lastDotIdx s.data with
  | none => s
  | some i =>
    if 0 < i ∧ i < s.data.length - 1 then String.mk (s.data.take i) else s

/-- The characters after the first `'_'`, or `none` when there is no
underscore (`stem.split("_", 1)` when `"_" in stem`). -/
def afterFirstUnderscore : List Char → Option (List Char)
  | [] => none
  | c :: rest => if c = '_' then some rest else afterFirstUnderscore rest

/-- `filepath.stem.split("_", 1)[1] if "_" in filepath.stem else ""`:
the human description parsed from a unit's stem. -/
def migrationDescription (stem : String) : String :=
  match afterFirstUnderscore stem.data with
  | some rest => String.mk rest
  | none => ""

/-! ### Directory model and unit discovery (`get_migration_files`). -/

/-- One directory entry as seen by `Path.iterdir`. -/
structure DirEntry where
  name : String
  isFile : Bool
deriving DecidableEq, Repr

/-- The filter of `get_migration_files`:
`f.is_file() and f.suffix == ".py" and not f.name.startswith("__")`. -/
def isMigrationFile (e : DirEntry) : Bool :=
  e.isFile && (pathSuffix e.name == ".py") && !(['_', '_'].isPrefixOf e.name.data)

/-- Comparison used by `migration_files.sort(key=lambda x: x.name)`. -/
def nameLe (a b : DirEntry) : Bool := decide (a.name ≤ b.name)

/-- `MigrationManager.get_migration_files`: `[]` when the directory does not
exist, else the entries passing `isMigrationFile`, stably sorted by name. -/
def getMigrationFiles (dir : Option (List DirEntry)) : List DirEntry :=
  match dir with
  | none => []
  | some entries => (entries.filter isMigrationFile).mergeSort nameLe

/-! ### Ledger model (`_migrations` collection). -/

/-- One persisted ledger document.  `id` models the Mongo `_id`. -/
structure LedgerEntry where
  id : Nat
  version : String
  name : String
  description : String
  appliedAt : Nat
deriving DecidableEq, Repr

/-- Comparison used by `collection.find().sort("applied_at", 1)`. -/
def appliedAtLe (a b : LedgerEntry) : Bool := decide (a.appliedAt ≤ b.appliedAt)

/-- `MigrationManager.get_applied_migrations`: all ledger documents sorted
ascending by application timestamp. -/
def getAppliedMigrations (st : List LedgerEntry) : List LedgerEntry :=
  st.mergeSort appliedAtLe

/-- `MigrationManager.get_pending_migrations`: discovered files whose name
has no ledger entry. -/
def getPendingMigrations (dir : Option (List DirEntry)) (st : List LedgerEntry) :
    List DirEntry :=
  let applied := (getAppliedMigrations st).map (·.name)
  (getMigrationFiles dir).filter (fun m => !(applied.contains m.name))

end Nauta

namespace Nauta

/-- A fresh `_id` for `insert_one`: one more than the largest id present. -/
def freshId (st : List LedgerEntry) : Nat :=
  (st.map (·.id)).foldr max 0 + 1

/-! ### Loader (`load_migration`). -/

/-- Dynamic behaviour of one migration unit's source file: whether
`spec_from_file_location` yields a spec with a loader, whether
`exec_module` raises, whether the module has a `Migration` class, and
whether the instance's `upgrade` / `downgrade` raise when invoked. -/
structure UnitBehavior where
  specOk : Bool
  execRaises : Bool
  hasMigrationClass : Bool
  upgradeRaises : Bool
  downgradeRaises : Bool
deriving DecidableEq, Repr

/-- `MigrationManager.load_migration`.  Every failure path — no loadable
spec, an exception while executing the module (caught by the surrounding
`try`/`except`), or a module without a `Migration` class — returns `none`;
only a fully resolved unit yields an instance. -/
def loadMigration (b : UnitBehavior) : Option UnitBehavior :=
  if !b.specOk then none
  else if b.execRaises then none
  else if !b.hasMigrationClass then none
  else some b

/-! ### Apply (`apply_migration`) and the batch loop of `cli.migrate`. -/

/-- The ledger document written by `apply_migration` on success. -/
def mkLedgerEntry (st : List LedgerEntry) (f : DirEntry) (now : Nat) :
    LedgerEntry :=
  { id := freshId st
    version := pathStem f.name
    name := f.name
    description := migrationDescription (pathStem f.name)
    appliedAt := now }

/-- `MigrationManager.apply_migration`: load the unit (failure → `False`,
ledger untouched); run `upgrade` (raise → `False`, ledger untouched);
then insert the ledger document and report `True`. -/
def applyMigration (env : String → UnitBehavior) (st : List LedgerEntry)
    (f : DirEntry) (now : Nat) : Bool × List LedgerEntry :=
  match loadMigration (env f.name) with
  | none => (false, st)
  | some b =>
    if b.upgradeRaises then (false, st)
    else (true, st ++ [mkLedgerEntry st f now])

/-- Observable outcome of a batch-apply run: whether every unit applied,
the resulting ledger, and how many `upgrade` operations were executed. -/
structure BatchResult where
  ok : Bool
  ledger : List LedgerEntry
  execs : Nat
deriving DecidableEq, Repr

/-- `1` when loading `b` produces an instance (so `upgrade` is invoked),
`0` when the load fails before `upgrade` could run. -/
def upgradeExecs (b : UnitBehavior) : Nat :=
  match loadMigration b with
  | none => 0
  | some _ => 1

/-- The loop of `cli.migrate`: apply the given units in order, halting at
the first `apply_migration` failure. -/
def applyAll (env : String → UnitBehavior) :
    List DirEntry → List LedgerEntry → Nat → BatchResult
  | [], st, _ => ⟨true, st, 0⟩
  | f :: rest, st, now =>
    match applyMigration env st f now with
    | (true, st') =>
      let r := applyAll env rest st' (now + 1)
      ⟨r.ok, r.ledger, upgradeExecs (env f.name) + r.execs⟩
    | (false, st') => ⟨false, st', upgradeExecs (env f.name)⟩

/-- `cli.migrate`'s batch run: compute the pending list once, then apply
each pending unit in ascending name order, stopping at the first failure. -/
def runMigrateBatch (env : String → UnitBehavior) (dir : Option (List DirEntry))
    (st : List LedgerEntry) (now : Nat) : BatchResult :=
  applyAll env (getPendingMigrations dir st) st now

/-! ### Rollback (`rollback_migration`). -/

/-- The distinct observable outcomes of `rollback_migration` (its printed
message together with the returned boolean). -/
inductive RollbackOutcome where
  | nothingToRollBack
  | notApplied
  | loadFailed
  | downgradeFailed
  | rolledBack (entry : LedgerEntry)
deriving DecidableEq, Repr

/-- Python's `if not migration_name:` — true for `None` and for `""`. -/
def isFalsyName : Option String → Bool
  | none => true
  | some s => s == ""

/-- The tail of `rollback_migration` once a ledger record has been
selected: load the unit (failure → ledger untouched), run `downgrade`
(raise → ledger untouched), then `delete_one` by the record's `_id`. -/
def rollbackFrom (env : String → UnitBehavior) (st : List LedgerEntry)
    (rec : LedgerEntry) : RollbackOutcome × List LedgerEntry :=
  match loadMigration (env rec.name) with
  | none => (.loadFailed, st)
  | some b =>
    if b.downgradeRaises then (.downgradeFailed, st)
    else (.rolledBack rec, st.eraseP (fun e => e.id == rec.id))

/-- `MigrationManager.rollback_migration`: empty ledger → "nothing to roll
back"; no (or falsy) explicit name → target `applied[-1]`; an explicit
name is looked up among the applied records, absence → "not found". -/
def rollbackMigration (env : String → UnitBehavior) (st : List LedgerEntry)
    (migrationName : Option String) : RollbackOutcome × List LedgerEntry :=
  match getAppliedMigrations st with
  | [] => (.nothingToRollBack, st)
  | a :: rest =>
    if isFalsyName migrationName then
      rollbackFrom env st ((a :: rest).getLast (List.cons_ne_nil a rest))
    else
      match (a :: rest).find? (fun m => m.name == migrationName.getD "") with
      | none => (.notApplied, st)
      | some rec => rollbackFrom env st rec

/-! ### Status (`get_status`). -/

/-- The dictionary returned by `get_status`. -/
structure MigrationStatus where
  total : Nat
  applied : Nat
  pending : Nat
  appliedMigrations : List LedgerEntry
  pendingMigrations : List String
deriving DecidableEq, Repr

/-- `MigrationManager.get_status`. -/
def getStatus (dir : Option (List DirEntry)) (st : List LedgerEntry) :
    MigrationStatus :=
  let allMigrations := getMigrationFiles dir
  let applied := getAppliedMigrations st
  let appliedNames := applied.map (·.name)
  let pending := allMigrations.filter (fun m => !(appliedNames.contains m.name))
  { total := allMigrations.length
    applied := applied.length
    pending := pending.length
    appliedMigrations := applied
    pendingMigrations := pending.map (·.name) }

/-! ### Authoring (`create_migration`): the generated file name. -/

/-- The sanitisation of the description in `create_migration`: lowercase,
spaces and hyphens to underscores, then keep only alphanumerics and
underscores. -/
def safeDescription (description : String) : String :=
  String.mk ((((description.data.map Char.toLower).map
    (fun c => if c = ' ' then '_' else c)).map
    (fun c => if c = '-' then '_' else c)).filter
    (fun c => c.isAlphanum || c == '_'))

/-- The file name `f"{timestamp}_{safe_description}.py"` generated by
`create_migration`; the timestamp string comes from
`datetime.now().strftime("%Y%m%d%H%M%S")`, which is threaded in as a
parameter. -/
def createMigrationFilename (timestamp description : String) : String :=
  timestamp ++ "_" ++ safeDescription description ++ ".py"

/-! ### Concrete fixtures used by witnesses and counterexamples. -/

/-- An environment in which every unit loads and both operations succeed. -/
def envAllOk : String → UnitBehavior := fun _ => ⟨true, false, true, false, false⟩

/-- An environment in which no unit's module spec resolves. -/
def envLoadFail : String → UnitBehavior := fun _ => ⟨false, false, false, false, false⟩

/-- A concrete migration file entry. -/
def fAdd : DirEntry := ⟨"20250101000000_add_index.py", true⟩

/-- A concrete ledger entry, applied first. -/
def eA : LedgerEntry := ⟨1, "20250101000000_a", "20250101000000_a.py", "a", 10⟩

/-- A concrete ledger entry, applied second. -/
def eB : LedgerEntry := ⟨2, "20250102000000_b", "20250102000000_b.py", "b", 20⟩

/-! ## Theorems -/

theorem nameLe_trans (a b c : DirEntry) (h1 : nameLe a b = true)
    (h2 : nameLe b c = true) : nameLe a c = true := by
  simp only [nameLe, decide_eq_true_eq] at *
  exact le_trans h1 h2

theorem nameLe_total (a b : DirEntry) : (nameLe a b || nameLe b a) = true := by
  simp only [nameLe, Bool.or_eq_true, decide_eq_true_eq]
  exact le_total a.name b.name

theorem sorted_getMigrationFiles (l : List DirEntry) :
    (getMigrationFiles (some l)).Pairwise (fun a b => a.name ≤ b.name) := by
  have h := List.sorted_mergeSort nameLe_trans nameLe_total
    (l.filter isMigrationFile)
  exact h.imp (fun hab => by simpa [nameLe] using hab)

theorem perm_getMigrationFiles (l : List DirEntry) :
    (getMigrationFiles (some l)).Perm (l.filter isMigrationFile) :=
  List.mergeSort_perm _ _

theorem mem_getMigrationFiles {l : List DirEntry} {e : DirEntry} :
    e ∈ getMigrationFiles (some l) ↔
      e ∈ l ∧ e.isFile = true ∧ pathSuffix e.name = ".py" ∧
        List.isPrefixOf ['_', '_'] e.name.data = false := by
  simp [getMigrationFiles, List.mem_filter, isMigrationFile, and_assoc]

theorem getMigrationFiles_deterministic {l₁ l₂ : List DirEntry}
    (hperm : l₁.Perm l₂)
    (hnodup : ((l₁.filter isMigrationFile).map (·.name)).Nodup) :
    getMigrationFiles (some l₁) = getMigrationFiles (some l₂) := by
  haveI : IsAntisymm DirEntry (fun a b => a.name < b.name) :=
    ⟨fun a b h1 h2 => absurd (lt_trans h1 h2) (lt_irrefl _)⟩
  have hp : (getMigrationFiles (some l₁)).Perm (getMigrationFiles (some l₂)) :=
    (perm_getMigrationFiles l₁).trans
      ((hperm.filter _).trans (perm_getMigrationFiles l₂).symm)
  have hs : ∀ (l : List DirEntry),
      ((l.filter isMigrationFile).map (·.name)).Nodup →
      (getMigrationFiles (some l)).Sorted (fun a b => a.name < b.name) := by
    intro l hnd
    have hle := sorted_getMigrationFiles l
    have hnd' : ((getMigrationFiles (some l)).map (·.name)).Nodup :=
      (((perm_getMigrationFiles l).map (·.name)).nodup_iff).mpr hnd
    have hne : (getMigrationFiles (some l)).Pairwise (fun a b => a.name ≠ b.name) :=
      List.pairwise_map.mp hnd'
    exact (hle.and hne).imp (fun h => lt_of_le_of_ne h.1 h.2)
  have hnodup₂ : ((l₂.filter isMigrationFile).map (·.name)).Nodup :=
    (((hperm.filter isMigrationFile).map (·.name)).nodup_iff).mp hnodup
  exact List.eq_of_perm_of_sorted hp (hs l₁ hnodup) (hs l₂ hnodup₂)

/-- C2: `get_migration_files` returns exactly the regular files with a
`.py` suffix whose name does not start with a double underscore, sorted
ascending by file name; a missing migrations directory yields the empty
sequence; and the enumeration is deterministic — two listings of an
unmodified directory (any two permutations of the same entries, the
entries' names being distinct) produce identical sequences. -/
theorem discovery_contract :
    getMigrationFiles none = [] ∧
    (∀ (l : List DirEntry) (e : DirEntry), e ∈ getMigrationFiles (some l) ↔
       e ∈ l ∧ e.isFile = true ∧ pathSuffix e.name = ".py" ∧
         List.isPrefixOf ['_', '_'] e.name.data = false) ∧
    (∀ l : List DirEntry,
       (getMigrationFiles (some l)).Pairwise (fun a b => a.name ≤ b.name) ∧
       (getMigrationFiles (some l)).Perm (l.filter isMigrationFile)) ∧
    (∀ l₁ l₂ : List DirEntry, l₁.Perm l₂ →
       ((l₁.filter isMigrationFile).map (·.name)).Nodup →
       getMigrationFiles (some l₁) = getMigrationFiles (some l₂)) :=
  ⟨rfl, fun _ _ => mem_getMigrationFiles,
   fun l => ⟨sorted_getMigrationFiles l, perm_getMigrationFiles l⟩,
   fun _ _ hperm hnodup => getMigrationFiles_deterministic hperm hnodup⟩

/-- Witness for C2: the determinism clause applied to two concrete
listings of the same two-file directory. -/
theorem discovery_contract_witness :
    getMigrationFiles (some [⟨"20250102000000_b.py", true⟩, ⟨"20250101000000_a.py", true⟩]) =
      getMigrationFiles (some [⟨"20250101000000_a.py", true⟩, ⟨"20250102000000_b.py", true⟩]) :=
  discovery_contract.2.2.2 _ _ (by decide) (by decide)

/-! ### Description parsing helpers (for C8). -/

theorem afterFirstUnderscore_append (pre post : List Char) (h : '_' ∉ pre) :
    afterFirstUnderscore (pre ++ '_' :: post) = some post := by
  induction pre with
  | nil => simp [afterFirstUnderscore]
  | cons c cs ih =>
    have hc : ¬ c = '_' := fun hc => h (hc ▸ List.mem_cons_self c cs)
    simp only [List.cons_append, afterFirstUnderscore, if_neg hc]
    exact ih (fun hm => h (List.mem_cons_of_mem c hm))

theorem afterFirstUnderscore_eq_none (l : List Char) (h : '_' ∉ l) :
    afterFirstUnderscore l = none := by
  induction l with
  | nil => rfl
  | cons c cs ih =>
    have hc : ¬ c = '_' := fun hc => h (hc ▸ List.mem_cons_self c cs)
    simp only [afterFirstUnderscore, if_neg hc]
    exact ih (fun hm => h (List.mem_cons_of_mem c hm))

/-- C8: on a successful apply, the ledger entry written has `version` the
unit file name without its extension (the stem), `name` the file name,
`description` the part of the stem after its first underscore (empty when
the stem has no underscore), and `applied_at` the application time. -/
theorem apply_ledger_entry_shape (env : String → UnitBehavior)
    (st : List LedgerEntry) (f : DirEntry) (now : Nat) (b : UnitBehavior)
    (hload : loadMigration (env f.name) = some b)
    (hup : b.upgradeRaises = false) :
    applyMigration env st f now =
      (true, st ++ [{ id := freshId st
                      version := pathStem f.name
                      name := f.name
                      description := migrationDescription (pathStem f.name)
                      appliedAt := now }]) ∧
    (∀ (pre post : List Char), '_' ∉ pre →
       migrationDescription (String.mk (pre ++ '_' :: post)) = String.mk post) ∧
    (∀ s : String, '_' ∉ s.data → migrationDescription s = "") := by
  refine ⟨?_, ?_, ?_⟩
  · simp [applyMigration, hload, hup, mkLedgerEntry]
  · intro pre post hpre
    simp [migrationDescription, afterFirstUnderscore_append pre post hpre]
  · intro s hs
    simp [migrationDescription, afterFirstUnderscore_eq_none s.data hs]

/-- Witness for C8: applying `20250101000000_add_index.py` to an empty
ledger writes the fully spelled-out entry. -/
theorem apply_ledger_entry_shape_witness :
    applyMigration envAllOk [] fAdd 5 =
      (true, [⟨1, "20250101000000_add_index", "20250101000000_add_index.py",
              "add_index", 5⟩]) := by
  have h := (apply_ledger_entry_shape envAllOk [] fAdd 5 ⟨true, false, true, false, false⟩
    rfl rfl).1
  rw [h]
  decide

/-- C3: when the load phase yields no instance or the unit's `upgrade`
raises, `apply_migration` reports failure and leaves the ledger unchanged;
an entry is appended only when `upgrade` returns without failure. -/
theorem apply_failure_no_ledger_write (env : String → UnitBehavior)
    (st : List LedgerEntry) (f : DirEntry) (now : Nat) :
    (loadMigration (env f.name) = none → applyMigration env st f now = (false, st)) ∧
    (∀ b, loadMigration (env f.name) = some b → b.upgradeRaises = true →
       applyMigration env st f now = (false, st)) ∧
    ((applyMigration env st f now).2 ≠ st →
       ∃ b, loadMigration (env f.name) = some b ∧ b.upgradeRaises = false ∧
         (applyMigration env st f now).2 = st ++ [mkLedgerEntry st f now]) := by
  refine ⟨?_, ?_, ?_⟩
  · intro h; simp [applyMigration, h]
  · intro b hb hup; simp [applyMigration, hb, hup]
  · intro hne
    cases hl : loadMigration (env f.name) with
    | none => exact absurd (by simp [applyMigration, hl]) hne
    | some b =>
      cases hup : b.upgradeRaises with
      | true => exact absurd (by simp [applyMigration, hl, hup]) hne
      | false => exact ⟨b, rfl, hup, by simp [applyMigration, hl, hup]⟩

/-- Witness for C3: a unit whose module spec does not resolve leaves the
ledger untouched and reports failure. -/
theorem apply_failure_no_ledger_write_witness :
    applyMigration envLoadFail [eA] fAdd 7 = (false, [eA]) :=
  (apply_failure_no_ledger_write envLoadFail [eA] fAdd 7).1 rfl

/-- C7: every resolution failure of the loader — unresolvable module spec,
an exception while executing the module, or a module without a `Migration`
class — yields the structured no-instance result `none` rather than an
exception (the result is always a structured `Option` value), and the
manager treats `none` as load failure, aborting the surrounding apply or
rollback step with the ledger untouched. -/
theorem load_failure_is_structured (env : String → UnitBehavior) :
    (∀ b : UnitBehavior,
       b.specOk = false ∨ b.execRaises = true ∨ b.hasMigrationClass = false →
       loadMigration b = none) ∧
    (∀ b : UnitBehavior, loadMigration b = none ∨ loadMigration b = some b) ∧
    (∀ (st : List LedgerEntry) (f : DirEntry) (now : Nat),
       loadMigration (env f.name) = none →
       applyMigration env st f now = (false, st)) ∧
    (∀ (st : List LedgerEntry) (rec : LedgerEntry),
       loadMigration (env rec.name) = none →
       rollbackFrom env st rec = (.loadFailed, st)) := by
  refine ⟨?_, ?_, ?_, ?_⟩
  · intro b h
    rcases h with h | h | h <;> by_cases hs : b.specOk <;>
      simp [loadMigration, h, hs] at *
  · intro b
    unfold loadMigration
    split
    · exact Or.inl rfl
    · split
      · exact Or.inl rfl
      · split
        · exact Or.inl rfl
        · exact Or.inr rfl
  · intro st f now h; simp [applyMigration, h]
  · intro st rec h; simp [rollbackFrom, h]

/-- Witness for C7: a unit whose module raises on execution yields `none`,
and the apply step aborts without touching the ledger. -/
theorem load_failure_is_structured_witness :
    loadMigration ⟨true, true, true, false, false⟩ = none ∧
    applyMigration envLoadFail [eB] fAdd 3 = (false, [eB]) :=
  ⟨(load_failure_is_structured envLoadFail).1 _ (Or.inr (Or.inl rfl)),
   (load_failure_is_structured envLoadFail).2.2.1 [eB] fAdd 3 rfl⟩

/-- `delete_one` by a unique `_id`: when ids are distinct, erasing the
first entry whose id matches removes exactly the targeted entry. -/
theorem eraseP_by_unique_id (st : List LedgerEntry) (rec : LedgerEntry)
    (hnd : (st.map (·.id)).Nodup) (hmem : rec ∈ st) :
    st.eraseP (fun e => e.id == rec.id) =
      st.filter (fun e => !(e.id == rec.id)) := by
  induction st with
  | nil => exact absurd hmem (List.not_mem_nil rec)
  | cons h t ih =>
    simp only [List.map_cons, List.nodup_cons, List.mem_map] at hnd
    by_cases hid : h.id = rec.id
    · have hall : ∀ e ∈ t, (!(e.id == rec.id)) = true := by
        intro e he
        simp only [Bool.not_eq_true', beq_eq_false_iff_ne, ne_eq]
        intro hcontra
        exact hnd.1 ⟨e, he, hcontra.trans hid.symm⟩
      rw [List.eraseP_cons, List.filter_cons]
      simp only [hid, beq_self_eq_true, Bool.not_true, if_false, cond_true]
      exact ((List.filter_eq_self).mpr hall).symm
    · have hrec : rec ∈ t := by
        rcases List.mem_cons.mp hmem with rfl | ht
        · exact absurd rfl hid
        · exact ht
      rw [List.eraseP_cons, List.filter_cons]
      have hbeq : (h.id == rec.id) = false := beq_eq_false_iff_ne.mpr hid
      simp only [hbeq, Bool.not_false, cond_false, if_true]
      rw [ih hnd.2 hrec]

/-- C6: when the selected unit's `downgrade` raises (or its load fails),
rollback reports failure and the ledger entry is not erased; the entry is
deleted — by its unique persisted `_id` — only after `downgrade` returns
without failure. -/
theorem rollback_failure_preserves_ledger (env : String → UnitBehavior)
    (st : List LedgerEntry) (rec : LedgerEntry) :
    (loadMigration (env rec.name) = none →
       rollbackFrom env st rec = (.loadFailed, st)) ∧
    (∀ b, loadMigration (env rec.name) = some b → b.downgradeRaises = true →
       rollbackFrom env st rec = (.downgradeFailed, st)) ∧
    (∀ b, loadMigration (env rec.name) = some b → b.downgradeRaises = false →
       rollbackFrom env st rec =
         (.rolledBack rec, st.eraseP (fun e => e.id == rec.id))) ∧
    ((st.map (·.id)).Nodup → rec ∈ st →
       st.eraseP (fun e => e.id == rec.id) =
         st.filter (fun e => !(e.id == rec.id))) := by
  refine ⟨?_, ?_, ?_, fun hnd hmem => eraseP_by_unique_id st rec hnd hmem⟩
  · intro h; simp [rollbackFrom, h]
  · intro b hb hd; simp [rollbackFrom, hb, hd]
  · intro b hb hd; simp [rollbackFrom, hb, hd]

/-- Witness for C6: rolling back `eA` out of the two-entry ledger deletes
exactly the entry with `eA`'s id. -/
theorem rollback_failure_preserves_ledger_witness :
    rollbackFrom envAllOk [eA, eB] eA = (.rolledBack eA, [eB]) := by
  have h := (rollback_failure_preserves_ledger envAllOk [eA, eB] eA).2.2.1
    ⟨true, false, true, false, false⟩ rfl rfl
  rw [h]
  decide

/-! ### Ledger-order helpers (for C4 and the batch lemmas). -/

theorem appliedAtLe_trans (a b c : LedgerEntry) (h1 : appliedAtLe a b = true)
    (h2 : appliedAtLe b c = true) : appliedAtLe a c = true := by
  simp only [appliedAtLe, decide_eq_true_eq] at *
  exact le_trans h1 h2

theorem appliedAtLe_total (a b : LedgerEntry) :
    (appliedAtLe a b || appliedAtLe b a) = true := by
  simp only [appliedAtLe, Bool.or_eq_true, decide_eq_true_eq]
  exact Nat.le_total a.appliedAt b.appliedAt

theorem getAppliedMigrations_perm (st : List LedgerEntry) :
    (getAppliedMigrations st).Perm st :=
  List.mergeSort_perm st _

theorem mem_getAppliedMigrations {st : List LedgerEntry} {e : LedgerEntry} :
    e ∈ getAppliedMigrations st ↔ e ∈ st :=
  List.mem_mergeSort

theorem getAppliedMigrations_sorted (st : List LedgerEntry) :
    (getAppliedMigrations st).Pairwise (fun a b => a.appliedAt ≤ b.appliedAt) := by
  have h := List.sorted_mergeSort appliedAtLe_trans
    appliedAtLe_total st
  exact h.imp (fun hab => by simpa [appliedAtLe] using hab)

theorem getAppliedMigrations_eq_nil {st : List LedgerEntry}
    (h : getAppliedMigrations st = []) : st = [] :=
  (h ▸ getAppliedMigrations_perm st).symm.eq_nil

theorem pairwise_le_getLast : ∀ (l : List LedgerEntry) (hne : l ≠ []),
    l.Pairwise (fun a b => a.appliedAt ≤ b.appliedAt) →
    ∀ x ∈ l, x.appliedAt ≤ (l.getLast hne).appliedAt := by
  intro l
  induction l with
  | nil => intro hne; exact absurd rfl hne
  | cons a t ih =>
    intro hne hp x hx
    cases t with
    | nil =>
      rcases List.mem_cons.mp hx with rfl | hx'
      · simp [List.getLast]
      · exact absurd hx' (List.not_mem_nil x)
    | cons b t' =>
      rw [List.getLast_cons (List.cons_ne_nil b t')]
      rcases List.mem_cons.mp hx with rfl | hx'
      · exact (List.pairwise_cons.mp hp).1 _ (List.getLast_mem (List.cons_ne_nil b t'))
      · exact ih (List.cons_ne_nil b t') (List.pairwise_cons.mp hp).2 x hx'

theorem find?_eq_some_of_unique {α : Type} (p : α → Bool) :
    ∀ (l : List α) (t : α), t ∈ l → p t = true →
    (∀ x ∈ l, p x = true → x = t) → l.find? p = some t := by
  intro l
  induction l with
  | nil => intro t hmem _ _; exact absurd hmem (List.not_mem_nil t)
  | cons a l ih =>
    intro t hmem hp huniq
    by_cases ha : p a = true
    · have haeq : a = t := huniq a (List.mem_cons_self a l) ha
      rw [List.find?_cons_of_pos _ ha, haeq]
    · rw [List.find?_cons_of_neg _ (by simpa using ha)]
      rcases List.mem_cons.mp hmem with rfl | hmem'
      · exact absurd hp ha
      · exact ih t hmem' hp (fun x hx hpx => huniq x (List.mem_cons_of_mem a hx) hpx)

/-- C4 (amended): rollback target selection.  With an empty ledger the
outcome is "nothing to roll back" and no mutation happens; an explicit
**non-empty** name absent from the ledger fails with "not applied"; with
no explicit name the strictly most-recently-applied entry by timestamp is
targeted; an explicit non-empty name targets the entry bearing it
regardless of other entries.  (The amendment: an explicit *empty* name is
treated like no name, see the counterexample.) -/
theorem rollback_target_selection (env : String → UnitBehavior)
    (st : List LedgerEntry) :
    (∀ migrationName, rollbackMigration env [] migrationName =
       (.nothingToRollBack, [])) ∧
    (∀ n : String, n ≠ "" → (∀ e ∈ st, e.name ≠ n) → st ≠ [] →
       rollbackMigration env st (some n) = (.notApplied, st)) ∧
    (∀ emax : LedgerEntry, emax ∈ st →
       (∀ e ∈ st, e ≠ emax → e.appliedAt < emax.appliedAt) →
       rollbackMigration env st none = rollbackFrom env st emax) ∧
    (∀ (n : String) (target : LedgerEntry), n ≠ "" → target ∈ st →
       target.name = n → (∀ e ∈ st, e.name = n → e = target) →
       rollbackMigration env st (some n) = rollbackFrom env st target) := by
  refine ⟨?_, ?_, ?_, ?_⟩
  · intro migrationName
    simp [rollbackMigration, getAppliedMigrations, List.mergeSort]
  · intro n hn hnone hst
    cases hA : getAppliedMigrations st with
    | nil => exact absurd (getAppliedMigrations_eq_nil hA) hst
    | cons a rest =>
      have hfalsy : isFalsyName (some n) = false := by simp [isFalsyName, hn]
      have hfind : (a :: rest).find? (fun m => m.name == n) = none := by
        apply List.find?_eq_none.mpr
        intro e he
        have he' : e ∈ st := mem_getAppliedMigrations.mp (hA ▸ he)
        simp [hnone e he']
      simp [rollbackMigration, hA, hfalsy, hfind]
  · intro emax hmem hstrict
    have hst : st ≠ [] := by
      intro h; subst h; exact absurd hmem (List.not_mem_nil emax)
    cases hA : getAppliedMigrations st with
    | nil => exact absurd (getAppliedMigrations_eq_nil hA) hst
    | cons a rest =>
      have hsorted := getAppliedMigrations_sorted st
      rw [hA] at hsorted
      have hlastmem : (a :: rest).getLast (List.cons_ne_nil a rest) ∈ st := by
        apply mem_getAppliedMigrations.mp
        rw [hA]
        exact List.getLast_mem (List.cons_ne_nil a rest)
      have hemaxmem : emax ∈ a :: rest := by
        rw [← hA]
        exact mem_getAppliedMigrations.mpr hmem
      have hle := pairwise_le_getLast (a :: rest) (List.cons_ne_nil a rest)
        hsorted emax hemaxmem
      have heq : (a :: rest).getLast (List.cons_ne_nil a rest) = emax := by
        by_contra hne2
        exact absurd hle (Nat.not_le.mpr (hstrict _ hlastmem hne2))
      simp [rollbackMigration, hA, isFalsyName, heq]
  · intro n target hn hmem hname huniq
    have hst : st ≠ [] := by
      intro h; subst h; exact absurd hmem (List.not_mem_nil target)
    cases hA : getAppliedMigrations st with
    | nil => exact absurd (getAppliedMigrations_eq_nil hA) hst
    | cons a rest =>
      have hfalsy : isFalsyName (some n) = false := by simp [isFalsyName, hn]
      have hfind : (a :: rest).find? (fun m => m.name == n) = some target := by
        apply find?_eq_some_of_unique
        · rw [← hA]
          exact mem_getAppliedMigrations.mpr hmem
        · simp [hname]
        · intro x hx hpx
          have hx' : x ∈ st := mem_getAppliedMigrations.mp (hA ▸ hx)
          exact huniq x hx' (by simpa using hpx)
      simp [rollbackMigration, hA, hfalsy, hfind]

/-- Witness for C4: the four selection clauses on the concrete ledger
`[eA, eB]` (`eA` applied at 10, `eB` at 20). -/
theorem rollback_target_selection_witness :
    rollbackMigration envAllOk [] none = (.nothingToRollBack, []) ∧
    rollbackMigration envAllOk [eA, eB] (some "20250103000000_c.py") =
      (.notApplied, [eA, eB]) ∧
    rollbackMigration envAllOk [eA, eB] none = rollbackFrom envAllOk [eA, eB] eB ∧
    rollbackMigration envAllOk [eA, eB] (some "20250101000000_a.py") =
      rollbackFrom envAllOk [eA, eB] eA :=
  ⟨(rollback_target_selection envAllOk []).1 none,
   (rollback_target_selection envAllOk [eA, eB]).2.1 _ (by decide) (by decide)
     (by decide),
   (rollback_target_selection envAllOk [eA, eB]).2.2.1 eB (by decide) (by decide),
   (rollback_target_selection envAllOk [eA, eB]).2.2.2 _ eA (by decide) (by decide)
     (by decide) (by decide)⟩

/-! ### Batch-apply helpers (for C1 and C5). -/

/-- When the applied names are exactly the first `k` file names (as a set)
and file names are distinct, the pending filter keeps exactly the files
from position `k` on. -/
theorem filter_not_contains_take_eq_drop (l : List DirEntry) (k : Nat)
    (applied : List String)
    (hnodup : (l.map (·.name)).Nodup) (_hk : k ≤ l.length)
    (happ : ∀ x, x ∈ applied ↔ x ∈ (l.map (·.name)).take k) :
    l.filter (fun f => !(applied.contains f.name)) = l.drop k := by
  conv_lhs => rw [← List.take_append_drop k l]
  rw [List.filter_append]
  have h1 : (l.take k).filter (fun f => !(applied.contains f.name)) = [] := by
    apply List.filter_eq_nil_iff.mpr
    intro a ha
    have hmem : a.name ∈ (l.map (·.name)).take k := by
      rw [← List.map_take]
      exact List.mem_map_of_mem _ ha
    have : a.name ∈ applied := (happ _).mpr hmem
    simp [List.contains, List.elem_eq_mem, this]
  have h2 : (l.drop k).filter (fun f => !(applied.contains f.name)) = l.drop k := by
    apply List.filter_eq_self.mpr
    intro a ha
    have hkey : a.name ∈ (l.map (·.name)).drop k := by
      rw [← List.map_drop]
      exact List.mem_map_of_mem _ ha
    have hnotin : a.name ∉ (l.map (·.name)).take k :=
      fun hin => List.disjoint_take_drop hnodup (le_refl k) hin hkey
    have : a.name ∉ applied := fun hmem => hnotin ((happ _).mp hmem)
    simp [List.contains, List.elem_eq_mem, this]
  rw [h1, h2, List.nil_append]

/-- Under the prefix hypothesis, `get_pending_migrations` is exactly the
suffix of the discovered files from position `k` on. -/
theorem pending_eq_drop (dir : Option (List DirEntry)) (st : List LedgerEntry)
    (k : Nat)
    (hnodup : ((getMigrationFiles dir).map (·.name)).Nodup)
    (hk : k ≤ (getMigrationFiles dir).length)
    (happ : ∀ x, x ∈ st.map (·.name) ↔
       x ∈ ((getMigrationFiles dir).map (·.name)).take k) :
    getPendingMigrations dir st = (getMigrationFiles dir).drop k := by
  have hmemiff : ∀ x, x ∈ (getAppliedMigrations st).map (·.name) ↔
      x ∈ ((getMigrationFiles dir).map (·.name)).take k := by
    intro x
    rw [← happ x]
    exact ((getAppliedMigrations_perm st).map (·.name)).mem_iff
  exact filter_not_contains_take_eq_drop (getMigrationFiles dir) k
    ((getAppliedMigrations st).map (·.name)) hnodup hk hmemiff

/-- Applying a suffix of the file sequence one by one, halting at the
first failure, moves the applied-name set from one prefix to a (weakly)
larger prefix. -/
theorem applyAll_prefix (env : String → UnitBehavior) :
    ∀ (fs files : List DirEntry) (k now : Nat) (st : List LedgerEntry),
    fs = files.drop k → k ≤ files.length →
    (∀ x, x ∈ st.map (·.name) ↔ x ∈ (files.map (·.name)).take k) →
    ∃ k', k' ≤ files.length ∧
      ∀ x, x ∈ (applyAll env fs st now).ledger.map (·.name) ↔
        x ∈ (files.map (·.name)).take k' := by
  intro fs
  induction fs with
  | nil =>
    intro files k now st _ hk happ
    exact ⟨k, hk, by simpa [applyAll] using happ⟩
  | cons f rest ih =>
    intro files k now st hfs hk happ
    have hlt : k < files.length := by
      by_contra hge
      have hnil : files.drop k = [] :=
        List.drop_eq_nil_of_le (Nat.le_of_not_lt hge)
      rw [← hfs] at hnil
      exact List.cons_ne_nil f rest hnil
    have h2 : f :: rest = files[k] :: files.drop (k + 1) :=
      hfs.trans (List.drop_eq_getElem_cons hlt)
    have hf : f = files[k] := (List.cons_eq_cons.mp h2).1
    have hrest : rest = files.drop (k + 1) := (List.cons_eq_cons.mp h2).2
    cases hl : loadMigration (env f.name) with
    | none =>
      refine ⟨k, hk, ?_⟩
      simpa [applyAll, applyMigration, hl] using happ
    | some b =>
      cases hup : b.upgradeRaises with
      | true =>
        refine ⟨k, hk, ?_⟩
        simpa [applyAll, applyMigration, hl, hup] using happ
      | false =>
        have hklt : k < (files.map (·.name)).length := by simpa using hlt
        have hknames : (files.map (·.name))[k] = f.name := by
          rw [hf, List.getElem_map]
        have htake : (files.map (·.name)).take (k + 1) =
            (files.map (·.name)).take k ++ [f.name] := by
          rw [List.take_succ]
          congr 1
          rw [List.getElem?_eq_getElem hklt, hknames]
          rfl
        have happ' : ∀ x,
            x ∈ (st ++ [mkLedgerEntry st f now]).map (·.name) ↔
            x ∈ (files.map (·.name)).take (k + 1) := by
          intro x
          have hnames : (st ++ [mkLedgerEntry st f now]).map (·.name) =
              st.map (·.name) ++ [f.name] := by
            simp [mkLedgerEntry]
          rw [hnames, htake]
          simp only [List.mem_append]
          exact or_congr (happ x) Iff.rfl
        obtain ⟨k', hk', hiff⟩ := ih files (k + 1) (now + 1)
          (st ++ [mkLedgerEntry st f now]) hrest hlt happ'
        refine ⟨k', hk', ?_⟩
        simpa [applyAll, applyMigration, hl, hup] using hiff

/-- C1: prefix consistency of a batch-apply run. If the applied names
form (as a set) the first `k` discovered unit names, then after the batch
run — pending list computed once, applied in ascending order, halting at
the first failure — the applied names again form the first `k'` unit
names for some `k' ≥ 0`, never a non-contiguous subset. -/
theorem batch_prefix_consistency (env : String → UnitBehavior)
    (dir : Option (List DirEntry)) (st : List LedgerEntry) (now k : Nat)
    (hnodup : ((getMigrationFiles dir).map (·.name)).Nodup)
    (hk : k ≤ (getMigrationFiles dir).length)
    (happ : ∀ x, x ∈ st.map (·.name) ↔
       x ∈ ((getMigrationFiles dir).map (·.name)).take k) :
    ∃ k', k' ≤ (getMigrationFiles dir).length ∧
      ∀ x, x ∈ (runMigrateBatch env dir st now).ledger.map (·.name) ↔
        x ∈ ((getMigrationFiles dir).map (·.name)).take k' := by
  have hp := pending_eq_drop dir st k hnodup hk happ
  simp only [runMigrateBatch, hp]
  exact applyAll_prefix env _ (getMigrationFiles dir) k now st rfl hk happ

/-- Discovery evaluated on the concrete one-file directory `[fAdd]`. -/
theorem getMigrationFiles_single : getMigrationFiles (some [fAdd]) = [fAdd] := by
  have h1 : [fAdd].filter isMigrationFile = [fAdd] := by decide
  show ([fAdd].filter isMigrationFile).mergeSort nameLe = [fAdd]
  rw [h1]
  exact List.mergeSort_of_sorted (by decide)

/-- Witness for C1: running the batch on a one-file directory from the
empty ledger (the empty prefix, `k = 0`) yields an applied set that is
again a prefix. -/
theorem batch_prefix_consistency_witness :
    ∃ k', k' ≤ (getMigrationFiles (some [fAdd])).length ∧
      ∀ x, x ∈ (runMigrateBatch envAllOk (some [fAdd]) [] 0).ledger.map (·.name) ↔
        x ∈ ((getMigrationFiles (some [fAdd])).map (·.name)).take k' := by
  apply batch_prefix_consistency envAllOk (some [fAdd]) [] 0 0
  · rw [getMigrationFiles_single]; decide
  · exact Nat.zero_le _
  · intro x; simp

/-- A fully successful batch run appends exactly the names of the units
it was given, in order. -/
theorem applyAll_ok_names (env : String → UnitBehavior) :
    ∀ (fs : List DirEntry) (st : List LedgerEntry) (now : Nat),
    (applyAll env fs st now).ok = true →
    (applyAll env fs st now).ledger.map (·.name) =
      st.map (·.name) ++ fs.map (·.name) := by
  intro fs
  induction fs with
  | nil => intro st now _; simp [applyAll]
  | cons f rest ih =>
    intro st now hok
    cases hl : loadMigration (env f.name) with
    | none => simp [applyAll, applyMigration, hl] at hok
    | some b =>
      cases hup : b.upgradeRaises with
      | true => simp [applyAll, applyMigration, hl, hup] at hok
      | false =>
        have hok' :
            (applyAll env rest (st ++ [mkLedgerEntry st f now]) (now + 1)).ok =
              true := by
          simpa [applyAll, applyMigration, hl, hup] using hok
        have hres := ih (st ++ [mkLedgerEntry st f now]) (now + 1) hok'
        have hstep : (applyAll env (f :: rest) st now).ledger =
            (applyAll env rest (st ++ [mkLedgerEntry st f now]) (now + 1)).ledger := by
          simp [applyAll, applyMigration, hl, hup]
        rw [hstep, hres]
        simp [mkLedgerEntry]

/-- Every discovered unit is either already named in the ledger or a
member of the pending list. -/
theorem pending_mem_split (dir : Option (List DirEntry)) (st : List LedgerEntry)
    (f : DirEntry) (hf : f ∈ getMigrationFiles dir) :
    f.name ∈ st.map (·.name) ∨ f ∈ getPendingMigrations dir st := by
  by_cases hc : f.name ∈ st.map (·.name)
  · exact Or.inl hc
  · right
    simp only [getPendingMigrations]
    apply List.mem_filter.mpr
    refine ⟨hf, ?_⟩
    have hnot : f.name ∉ (getAppliedMigrations st).map (·.name) := by
      intro hm
      exact hc (((getAppliedMigrations_perm st).map (·.name)).mem_iff.mp hm)
    simp [List.contains, List.elem_eq_mem, hnot]

/-- C5: idempotent re-run.  When a batch run applies all pending units
successfully, the pending set computed against the resulting ledger is
empty, and a second batch run performs zero ledger writes (the ledger is
returned unchanged) and executes zero unit apply operations. -/
theorem idempotent_rerun (env : String → UnitBehavior)
    (dir : Option (List DirEntry)) (st : List LedgerEntry) (now now' : Nat)
    (hok : (runMigrateBatch env dir st now).ok = true) :
    getPendingMigrations dir (runMigrateBatch env dir st now).ledger = [] ∧
    (runMigrateBatch env dir (runMigrateBatch env dir st now).ledger now').ledger =
      (runMigrateBatch env dir st now).ledger ∧
    (runMigrateBatch env dir (runMigrateBatch env dir st now).ledger now').execs =
      0 := by
  have hnames : (runMigrateBatch env dir st now).ledger.map (·.name) =
      st.map (·.name) ++ (getPendingMigrations dir st).map (·.name) :=
    applyAll_ok_names env (getPendingMigrations dir st) st now hok
  have hpend : getPendingMigrations dir (runMigrateBatch env dir st now).ledger =
      [] := by
    simp only [getPendingMigrations]
    apply List.filter_eq_nil_iff.mpr
    intro f hf
    have hin : f.name ∈ (runMigrateBatch env dir st now).ledger.map (·.name) := by
      rw [hnames]
      rcases pending_mem_split dir st f hf with h | h
      · exact List.mem_append_left _ h
      · exact List.mem_append_right _ (List.mem_map_of_mem _ h)
    have hin' : f.name ∈
        (getAppliedMigrations (runMigrateBatch env dir st now).ledger).map
          (·.name) :=
      ((getAppliedMigrations_perm _).map (·.name)).mem_iff.mpr hin
    simp [List.contains, List.elem_eq_mem, hin']
  have hpend' := hpend
  simp only [runMigrateBatch] at hpend'
  refine ⟨hpend, ?_, ?_⟩ <;>
    · simp only [runMigrateBatch]
      rw [hpend']
      simp [applyAll]

/-- The pending list of the concrete one-file directory over the empty
ledger. -/
theorem pending_single : getPendingMigrations (some [fAdd]) [] = [fAdd] := by
  simp only [getPendingMigrations, getMigrationFiles_single]
  simp [getAppliedMigrations, List.mergeSort, List.contains]

/-- Witness for C5: after the successful run on the one-file directory,
the pending set is empty and the second run writes nothing and executes
nothing. -/
theorem idempotent_rerun_witness :
    getPendingMigrations (some [fAdd])
      (runMigrateBatch envAllOk (some [fAdd]) [] 0).ledger = [] ∧
    (runMigrateBatch envAllOk (some [fAdd])
      (runMigrateBatch envAllOk (some [fAdd]) [] 0).ledger 1).ledger =
      (runMigrateBatch envAllOk (some [fAdd]) [] 0).ledger ∧
    (runMigrateBatch envAllOk (some [fAdd])
      (runMigrateBatch envAllOk (some [fAdd]) [] 0).ledger 1).execs = 0 :=
  idempotent_rerun envAllOk (some [fAdd]) [] 0 1
    (by simp [runMigrateBatch, pending_single, applyAll, applyMigration,
          loadMigration, envAllOk])

/-! ### Status counting helpers (for C9). -/

theorem length_filter_add_length_filter_not {α : Type} (l : List α)
    (p : α → Bool) :
    (l.filter p).length + (l.filter (fun a => !(p a))).length = l.length := by
  induction l with
  | nil => rfl
  | cons a t ih =>
    by_cases h : p a = true <;> simp [List.filter_cons, h] <;> omega

/-- With distinct file names, a ledger containing an entry whose name is
not among the files matches strictly fewer files than it has entries. -/
theorem matched_length_lt (files : List DirEntry) (st : List LedgerEntry)
    (hnodup : (files.map (·.name)).Nodup) (g : LedgerEntry) (hg : g ∈ st)
    (hgname : g.name ∉ files.map (·.name)) :
    (files.filter (fun m => (st.map (·.name)).contains m.name)).length <
      st.length := by
  have hlen1 : ((files.map (·.name)).filter
      (fun x => (st.map (·.name)).contains x)).length =
      (files.filter (fun m => (st.map (·.name)).contains m.name)).length := by
    rw [List.filter_map]
    rw [List.length_map]
    rfl
  have hxsnodup : ((files.map (·.name)).filter
      (fun x => (st.map (·.name)).contains x)).Nodup := hnodup.filter _
  have hsub : ((files.map (·.name)).filter
      (fun x => (st.map (·.name)).contains x)).toFinset ⊆
      (st.map (·.name)).toFinset.erase g.name := by
    intro x hx
    rw [List.mem_toFinset] at hx
    have hx' := List.mem_filter.mp hx
    have hxstN : x ∈ st.map (·.name) := by
      have h2 := hx'.2
      simpa [List.contains, List.elem_eq_mem] using h2
    apply Finset.mem_erase.mpr
    exact ⟨fun h => hgname (h ▸ hx'.1), List.mem_toFinset.mpr hxstN⟩
  have hgmem : g.name ∈ (st.map (·.name)).toFinset :=
    List.mem_toFinset.mpr (List.mem_map_of_mem _ hg)
  have hcard1 : ((files.map (·.name)).filter
      (fun x => (st.map (·.name)).contains x)).toFinset.card ≤
      (st.map (·.name)).toFinset.card - 1 := by
    calc ((files.map (·.name)).filter
        (fun x => (st.map (·.name)).contains x)).toFinset.card
        ≤ ((st.map (·.name)).toFinset.erase g.name).card :=
          Finset.card_le_card hsub
      _ = (st.map (·.name)).toFinset.card - 1 :=
          Finset.card_erase_of_mem hgmem
  have hpos : 0 < (st.map (·.name)).toFinset.card :=
    Finset.card_pos.mpr ⟨g.name, hgmem⟩
  have hle : (st.map (·.name)).toFinset.card ≤ (st.map (·.name)).length := by
    apply List.toFinset_card_le
  have heq : ((files.map (·.name)).filter
      (fun x => (st.map (·.name)).contains x)).toFinset.card =
      ((files.map (·.name)).filter
        (fun x => (st.map (·.name)).contains x)).length :=
    List.toFinset_card_of_nodup hxsnodup
  have hstlen : (st.map (·.name)).length = st.length := List.length_map _ _
  omega

/-- C9: `get_status` reports `total` as the number of discovered files,
`applied` as the number of ledger entries, and `pending` as the number of
discovered files without a ledger entry.  `applied + pending = total` can
hold only when every ledger entry names a discovered file; a ledger entry
whose file is absent makes `applied + pending` strictly exceed `total`,
and such an entry's name appears in no pending list. -/
theorem status_accounting (dir : Option (List DirEntry)) (st : List LedgerEntry)
    (hnodup : ((getMigrationFiles dir).map (·.name)).Nodup) :
    (getStatus dir st).total = (getMigrationFiles dir).length ∧
    (getStatus dir st).applied = st.length ∧
    (getStatus dir st).pending =
      ((getMigrationFiles dir).filter
        (fun m => !((st.map (·.name)).contains m.name))).length ∧
    ((getStatus dir st).applied + (getStatus dir st).pending =
        (getStatus dir st).total →
      ∀ e ∈ st, e.name ∈ (getMigrationFiles dir).map (·.name)) ∧
    (∀ e ∈ st, e.name ∉ (getMigrationFiles dir).map (·.name) →
      (getStatus dir st).total <
        (getStatus dir st).applied + (getStatus dir st).pending ∧
      e.name ∉ (getStatus dir st).pendingMigrations) := by
  have htotal : (getStatus dir st).total = (getMigrationFiles dir).length := by
    simp only [getStatus]
  have happly : (getStatus dir st).applied = st.length := by
    simp only [getStatus]
    exact (getAppliedMigrations_perm st).length_eq
  have hcongr : ∀ m : DirEntry,
      ((getAppliedMigrations st).map (·.name)).contains m.name =
      (st.map (·.name)).contains m.name := by
    intro m
    have hm : m.name ∈ (getAppliedMigrations st).map (·.name) ↔
        m.name ∈ st.map (·.name) :=
      ((getAppliedMigrations_perm st).map (·.name)).mem_iff
    simp [List.contains, List.elem_eq_mem, hm]
  have hpendfield : (getStatus dir st).pending =
      ((getMigrationFiles dir).filter
        (fun m => !((st.map (·.name)).contains m.name))).length := by
    simp only [getStatus]
    congr 1
    apply List.filter_congr
    intro m _
    rw [hcongr m]
  have hpendnames : (getStatus dir st).pendingMigrations =
      ((getMigrationFiles dir).filter
        (fun m => !(((getAppliedMigrations st).map (·.name)).contains
          m.name))).map (·.name) := by
    simp only [getStatus]
  have hsum := length_filter_add_length_filter_not (getMigrationFiles dir)
    (fun m => (st.map (·.name)).contains m.name)
  refine ⟨htotal, happly, hpendfield, ?_, ?_⟩
  · intro hsum2 e he
    by_contra hghost
    have hlt := matched_length_lt (getMigrationFiles dir) st hnodup e he hghost
    rw [htotal, happly, hpendfield] at hsum2
    omega
  · intro e he hghost
    refine ⟨?_, ?_⟩
    · have hlt := matched_length_lt (getMigrationFiles dir) st hnodup e he hghost
      rw [htotal, happly, hpendfield]
      omega
    · rw [hpendnames]
      intro hmem
      obtain ⟨m, hm, hmname⟩ := List.mem_map.mp hmem
      have hmfiles : m ∈ getMigrationFiles dir := (List.mem_filter.mp hm).1
      exact hghost (hmname ▸ List.mem_map_of_mem _ hmfiles)

/-- Witness for C9: status of the one-file directory against the
one-entry ledger `[eA]`. -/
theorem status_accounting_witness :
    (getStatus (some [fAdd]) [eA]).total = 1 ∧
    (getStatus (some [fAdd]) [eA]).applied = 1 := by
  have h := status_accounting (some [fAdd]) [eA]
    (by rw [getMigrationFiles_single]; decide)
  refine ⟨?_, ?_⟩
  · rw [h.1, getMigrationFiles_single]
    rfl
  · rw [h.2.1]
    rfl

/-! ### Generated-name helpers (for C10). -/

/-- The last dot of any list ending in `['.', 'p', 'y']` sits right before
the `"py"`, whatever comes earlier. -/
theorem lastDotIdx_append_py (A : List Char) :
    lastDotIdx (A ++ ['.', 'p', 'y']) = some A.length := by
  unfold lastDotIdx
  have hrev : (A ++ ['.', 'p', 'y']).reverse = 'y' :: 'p' :: '.' :: A.reverse := by
    simp
  rw [hrev]
  have hfind : List.findIdx? (fun c => c == '.')
      ('y' :: 'p' :: '.' :: A.reverse) = some 2 := rfl
  rw [hfind]
  have hlen : (A ++ ['.', 'p', 'y']).length = A.length + 3 := by simp
  rw [hlen]
  show some (A.length + 3 - 1 - 2) = some A.length
  rfl

/-- A name whose characters are some non-empty `A` followed by `".py"`
has `pathlib` suffix `".py"`. -/
theorem pathSuffix_of_data (s : String) (A : List Char)
    (hdata : s.data = A ++ ['.', 'p', 'y']) (hA : A ≠ []) :
    pathSuffix s = ".py" := by
  unfold pathSuffix
  rw [hdata]
  simp only [lastDotIdx_append_py]
  have hApos : 0 < A.length := List.length_pos.mpr hA
  have hlen : (A ++ ['.', 'p', 'y']).length = A.length + 3 := by simp
  rw [if_pos ⟨hApos, by rw [hlen]; omega⟩]
  rw [List.drop_left]

/-- A name whose first character differs from `'_'` does not start with a
double underscore. -/
theorem isPrefixOf_dunder_cons (c : Char) (tail : List Char)
    (h : ('_' == c) = false) :
    List.isPrefixOf ['_', '_'] (c :: tail) = false := by
  simp [List.isPrefixOf, h]

/-- Strict lexicographic order is preserved by appending anything after
two strictly ordered prefixes of equal length. -/
theorem charlist_lt_append : ∀ (as bs : List Char), List.Lex (· < ·) as bs →
    as.length = bs.length →
    ∀ (u v : List Char), List.Lex (· < ·) (as ++ u) (bs ++ v) := by
  intro as bs h
  induction h with
  | nil =>
    intro hlen
    simp at hlen
  | cons _ ih =>
    intro hlen u v
    exact List.Lex.cons (ih (by simpa using hlen) u v)
  | rel hr =>
    intro _ u v
    exact List.Lex.rel hr

/-- Generated file names with strictly ordered equal-length timestamps are
strictly ordered, whatever the descriptions. -/
theorem createMigrationFilename_lt (ts₁ d₁ ts₂ d₂ : String)
    (hlen : ts₁.data.length = ts₂.data.length) (hlt : ts₁ < ts₂) :
    createMigrationFilename ts₁ d₁ < createMigrationFilename ts₂ d₂ := by
  rw [String.lt_iff_toList_lt] at hlt ⊢
  show List.Lex (· < ·) (createMigrationFilename ts₁ d₁).data
    (createMigrationFilename ts₂ d₂).data
  have h1 : (createMigrationFilename ts₁ d₁).data =
      ts₁.data ++ ("_" ++ safeDescription d₁ ++ ".py").data := by
    simp [createMigrationFilename, String.data_append]
  have h2 : (createMigrationFilename ts₂ d₂).data =
      ts₂.data ++ ("_" ++ safeDescription d₂ ++ ".py").data := by
    simp [createMigrationFilename, String.data_append]
  rw [h1, h2]
  exact charlist_lt_append ts₁.data ts₂.data hlt hlen _ _

/-- C10: `create_migration` builds the file name as 14-digit timestamp,
underscore, sanitized description (lowercased, spaces and hyphens to
underscores, all other non-alphanumeric non-underscore characters
removed), and `.py`; the generated name always passes the discovery
filter (a `.py` file not starting with `__`), and names with later
timestamps sort strictly later. -/
theorem create_migration_filename_contract (ts desc : String)
    (h14 : ts.data.length = 14) (hdig : ∀ c ∈ ts.data, c.isDigit) :
    createMigrationFilename ts desc =
      ts ++ "_" ++ safeDescription desc ++ ".py" ∧
    (∀ c ∈ (safeDescription desc).data, c.isAlphanum = true ∨ c = '_') ∧
    pathSuffix (createMigrationFilename ts desc) = ".py" ∧
    isMigrationFile ⟨createMigrationFilename ts desc, true⟩ = true ∧
    (∀ ts₂ desc₂ : String, ts₂.data.length = 14 → ts < ts₂ →
       createMigrationFilename ts desc < createMigrationFilename ts₂ desc₂) := by
  have hus : ("_" : String).data = ['_'] := rfl
  have hpy : (".py" : String).data = ['.', 'p', 'y'] := rfl
  have hchars : ∀ c ∈ (safeDescription desc).data,
      c.isAlphanum = true ∨ c = '_' := by
    intro c hc
    have hc' : c ∈ (((desc.data.map Char.toLower).map
        (fun c => if c = ' ' then '_' else c)).map
        (fun c => if c = '-' then '_' else c)).filter
        (fun c => c.isAlphanum || c == '_') := hc
    have hp := (List.mem_filter.mp hc').2
    rcases Bool.or_eq_true .. |>.mp hp with h | h
    · exact Or.inl h
    · exact Or.inr (beq_iff_eq.mp h)
  have hsuffix : pathSuffix (createMigrationFilename ts desc) = ".py" := by
    apply pathSuffix_of_data _ (ts ++ "_" ++ safeDescription desc).data
    · simp [createMigrationFilename, String.data_append]
    · simp [String.data_append, hus]
  refine ⟨rfl, hchars, hsuffix, ?_, ?_⟩
  · cases hts : ts.data with
    | nil => rw [hts] at h14; simp at h14
    | cons c rest =>
      have hc : c.isDigit = true :=
        hdig c (by rw [hts]; exact List.mem_cons_self c rest)
      have hcne : ('_' == c) = false := by
        apply beq_eq_false_iff_ne.mpr
        intro h
        rw [← h] at hc
        exact absurd hc (by decide)
      have hex : ∃ t, (createMigrationFilename ts desc).data = c :: t := by
        rw [show (createMigrationFilename ts desc).data =
          ts.data ++ ("_" ++ safeDescription desc ++ ".py").data from by
            simp [createMigrationFilename, String.data_append]]
        rw [hts]
        exact ⟨_, rfl⟩
      obtain ⟨t, ht⟩ := hex
      simp only [isMigrationFile]
      rw [hsuffix, ht, isPrefixOf_dunder_cons c t hcne]
      simp
  · intro ts₂ desc₂ h14₂ hlt
    exact createMigrationFilename_lt ts desc ts₂ desc₂
      (h14.trans h14₂.symm) hlt

/-- Witness for C10: concrete generated names. -/
theorem create_migration_filename_contract_witness :
    pathSuffix (createMigrationFilename "20250101000000" "init") = ".py" ∧
    isMigrationFile ⟨createMigrationFilename "20250101000000" "init", true⟩ =
      true ∧
    createMigrationFilename "20250101000000" "init" <
      createMigrationFilename "20250102000000" "add index" := by
  have h := create_migration_filename_contract "20250101000000" "init"
    (by decide) (by decide)
  refine ⟨h.2.2.1, h.2.2.2.1, h.2.2.2.2 "20250102000000" "add index" (by decide) ?_⟩
  rw [String.lt_iff_toList_lt]
  show List.Lex (· < ·) "20250101000000".data "20250102000000".data
  decide

/-- C4 counterexample: the empty string is an explicit name absent from
the one-entry ledger `[eA]`, yet `rollback_migration` does not fail with
"not applied": Python's `if not migration_name:` treats `""` as "no name
given" and targets (and here successfully rolls back) the most recent
entry `eA`. -/
theorem rollback_empty_name_counterexample :
    rollbackMigration envAllOk [eA] (some "") = (.rolledBack eA, []) ∧
    rollbackMigration envAllOk [eA] (some "") ≠ (.notApplied, [eA]) := by
  have h : rollbackMigration envAllOk [eA] (some "") = (.rolledBack eA, []) := by
    simp [rollbackMigration, getAppliedMigrations, List.mergeSort, isFalsyName,
          List.getLast, rollbackFrom, envAllOk, loadMigration, List.eraseP, eA]
  exact ⟨h, by rw [h]; decide⟩

end Nauta
